import Mathlib

/-!
Verification of the crossword-solver service (`app.py`).

The Python source is shallowly embedded: strings are `List Char`, Python
dynamic values produced by `json.loads` (and stored in the caches) are the
inductive `Json`, fallible Python code (uncaught `AttributeError`) returns
`Except PyErr`, and the two process-wide caches are threaded explicitly as
association lists.  Outbound HTTP calls are modelled as oracle parameters:
the dictionary service is a function from word to `HttpResult`, and the
language-model call is a `ModelResult` (its prompt only influences what the
model answers, which the oracle already absorbs).  `time.time()` is an
integer-valued clock passed as `now`.
-/

/-- ASCII whitespace recognised by Python's `str.strip()`. -/
def isSpace (c : Char) : Bool :=
  c = ' ' || c = '\t' || c = '\n' || c = '\r' || c = '\x0b' || c = '\x0c'

/-- Python `str.strip()`: drop leading and trailing whitespace. -/
def strip (s : List Char) : List Char :=
  ((s.dropWhile isSpace).reverse.dropWhile isSpace).reverse

/-- ASCII case of Python `str.lower()` on a single character. -/
def asciiLower (c : Char) : Char :=
  if 'A' ≤ c && c ≤ 'Z' then Char.ofNat (c.toNat + 32) else c

/-- Python `str.lower()` (ASCII fragment). -/
def strLower (s : List Char) : List Char :=
  s.map asciiLower

/-- Values produced by `json.loads` and stored in the caches:
`null`, booleans, numbers (integer fragment), strings, lists, dicts. -/
inductive Json where
  | null
  | bool (b : Bool)
  | num (n : Int)
  | str (s : List Char)
  | arr (elems : List Json)
  | obj (fields : List (List Char × Json))

/-- Python truthiness of a JSON-shaped value. -/
def truthy : Json → Bool
  | .null => false
  | .bool b => b
  | .num n => n ≠ 0
  | .str s => !s.isEmpty
  | .arr l => !l.isEmpty
  | .obj l => !l.isEmpty

/-- Is the value a Python `str`? -/
def Json.isStr : Json → Bool
  | .str _ => true
  | _ => false

/-- Is the value a Python `list`? -/
def Json.isArr : Json → Bool
  | .arr _ => true
  | _ => false

/-- First-match lookup in an association list with `List Char` keys
(models reading a Python dict). -/
def alookup {α : Type} (l : List (List Char × α)) (k : List Char) : Option α :=
  match l with
  | [] => none
  | (k', v) :: t => if k' = k then some v else alookup t k

/-- Python dict assignment `d[k] = v`; later entries shadow earlier ones
under `alookup`. -/
def ainsert {α : Type} (l : List (List Char × α)) (k : List Char) (v : α) :
    List (List Char × α) :=
  (k, v) :: l

/-- Python `"key" == value` as used by `in` on lists: only an equal string
compares equal. -/
def jsonEqStr (k : List Char) : Json → Bool
  | .str s => s = k
  | _ => false

/-- Python substring test `k in s` on strings. -/
def isSubstring (k : List Char) : List Char → Bool
  | [] => k.isEmpty
  | c :: t => k.isPrefixOf (c :: t) || isSubstring k t

/-- Python `k in v` for a string `k`: key test on dicts, membership on
lists, substring test on strings; `none` models a raised `TypeError`. -/
def pyContains (k : List Char) : Json → Option Bool
  | .obj kvs => some (kvs.any (fun kv => kv.1 = k))
  | .arr l => some (l.any (jsonEqStr k))
  | .str s => some (isSubstring k s)
  | _ => none

/-- Python `v[k]` for a string key `k`: only dicts succeed (`none` models
the raised `TypeError`/`KeyError`). -/
def pySubscriptStr (v : Json) (k : List Char) : Option Json :=
  match v with
  | .obj kvs => alookup kvs k
  | _ => none

/-- Python `v[0]`: list indexing, or single-character string indexing
(`none` models the raised `TypeError`/`IndexError`/`KeyError`). -/
def pyIndex0 : Json → Option Json
  | .arr (x :: _) => some x
  | .str (c :: _) => some (.str [c])
  | _ => none

/-- The fixed sentinel string `"Meaning not found."`. -/
def sentinelStr : List Char := "Meaning not found.".toList

/-- The sentinel as a cached value. -/
def sentinelJ : Json := .str sentinelStr

/-- Outcome of `requests.get` in `get_meaning`: `exn` is a raised network
error or timeout; `ok status body` is a response, with `body = none` when
`r.json()` raises on a malformed payload. -/
inductive HttpResult where
  | exn
  | ok (status : Nat) (body : Option Json)

/-- The nested-field walk of `get_meaning`:
`data[0]["meanings"][0]["definitions"][0].get("definition", ...)`.
`none` covers every guard that fails and every exception the walk raises;
in both cases the Python variable `meaning` keeps its sentinel value, so
the conflation is behaviour-preserving (nothing after the walk can raise). -/
def extractDefinition (data : Json) : Option Json :=
  match data with
  | .arr (d0 :: _) => do
    let c ← pyContains "meanings".toList d0
    if c then
      let meanings ← pySubscriptStr d0 "meanings".toList
      if truthy meanings then
        let m0 ← pyIndex0 meanings
        let c2 ← pyContains "definitions".toList m0
        if c2 then
          let defs ← pySubscriptStr m0 "definitions".toList
          if truthy defs then
            let def0 ← pyIndex0 defs
            match def0 with
            | .obj kvs => alookup kvs "definition".toList
            | _ => none
          else none
        else none
      else none
    else none
  | _ => none

/-- The meaning `get_meaning` computes from one dictionary-service
response (the body of its `try`). -/
def responseMeaning (r : HttpResult) : Json :=
  match r with
  | .exn => sentinelJ
  | .ok status body =>
    if status = 200 then
      match body with
      | none => sentinelJ
      | some data => (extractDefinition data).getD sentinelJ
    else sentinelJ

/-- The word → meaning cache `_dict_cache`. -/
abbrev DictCache := List (List Char × Json)

/-- `get_meaning(word)`: consult the cache under the lowercased word, else
perform one external lookup and cache its result (also caching the
sentinel on failure).  The `Bool` records whether an external request was
performed. -/
def get_meaning (orc : List Char → HttpResult) (word : List Char)
    (dc : DictCache) : Json × DictCache × Bool :=
  let wl := strLower word
  match alookup dc wl with
  | some m => (m, dc, false)
  | none =>
    let meaning := responseMeaning (orc wl)
    (meaning, ainsert dc wl meaning, true)

/-- Characters escaped by `re.escape` on the Python version this source
requires (≥ 3.10, forced by the `str | None` annotation in `ai_guess_clue`;
since Python 3.7 `re.escape` escapes exactly this set — notably `_` is NOT
escaped). -/
def reSpecial (c : Char) : Bool :=
  c = '(' || c = ')' || c = '[' || c = ']' ||
  c = Char.ofNat 123 || c = Char.ofNat 125 ||
  c = '?' || c = '*' || c = '+' || c = '-' || c = '|' || c = '^' || c = '$' ||
  c = '\\' || c = '.' || c = '&' || c = '~' || c = '#' || c = ' ' ||
  c = '\t' || c = '\n' || c = '\r' || c = '\x0b' || c = '\x0c'

/-- `re.escape`: backslash every special character. -/
def reEscape (s : List Char) : List Char :=
  (s.map (fun c => if reSpecial c then ['\\', c] else [c])).flatten

/-- Python `str.replace(old, new)` specialised to the uses in
`_pattern_to_regex`: a two-character `old` (`o1 o2`) and a one-character
`new` (`n`), leftmost first, non-overlapping. -/
def replacePair (o1 o2 n : Char) : List Char → List Char
  | [] => []
  | [c] => [c]
  | c1 :: c2 :: rest =>
    if c1 = o1 && c2 = o2 then n :: replacePair o1 o2 n rest
    else c1 :: replacePair o1 o2 n (c2 :: rest)

/-- `_pattern_to_regex`: lowercase, `re.escape`, then textually replace
the two-character sequences backslash-underscore and backslash-question
by a dot, and anchor. -/
def _pattern_to_regex (pattern : List Char) : List Char :=
  let esc := reEscape (strLower pattern)
  let esc := replacePair '\\' '_' '.' esc
  let esc := replacePair '\\' '?' '.' esc
  '^' :: esc ++ ['$']

/-- One item of the regexes `_pattern_to_regex` can build: a literal
character or the metacharacter dot. -/
inductive RItem where
  | lit (c : Char)
  | dot

/-- Parse the body of such a regex: a backslash escapes the next
character, an unescaped dot matches any character except newline, and
every other character is a literal. -/
def parseRegexBody : List Char → List RItem
  | [] => []
  | '\\' :: c :: rest => .lit c :: parseRegexBody rest
  | '.' :: rest => .dot :: parseRegexBody rest
  | c :: rest => .lit c :: parseRegexBody rest

/-- Does one regex item match one character? (`.` does not match `\n`.) -/
def itemMatch : RItem → Char → Bool
  | .lit c, w => c = w
  | .dot, w => w ≠ '\n'

/-- Match a sequence of items against a whole string. -/
def itemsMatch : List RItem → List Char → Bool
  | [], [] => true
  | [], _ :: _ => false
  | _ :: _, [] => false
  | i :: is, c :: cs => itemMatch i c && itemsMatch is cs

/-- `re.match` of a regex of the form `^body$` as built by
`_pattern_to_regex`: anchored at the start, with `$` also matching just
before a single trailing newline (Python semantics). -/
def reFullMatch (rx : List Char) (w : List Char) : Bool :=
  match rx with
  | '^' :: rest =>
    let items := parseRegexBody rest.dropLast
    itemsMatch items w ||
      ((w.getLast? == some '\n') && itemsMatch items w.dropLast)
  | _ => false

/-- `re.compile(_pattern_to_regex(pattern)).match(w)`. -/
def rxMatch (pattern w : List Char) : Bool :=
  reFullMatch (_pattern_to_regex pattern) w

/-- The pre-truncation match set of `find_matches_with_meanings`:
`[w for w in WORD_LIST if rx.match(w)]`. -/
def patternMatches (wordList : List (List Char)) (pattern : List Char) :
    List (List Char) :=
  wordList.filter (rxMatch pattern)

/-- A `{word, meaning}` candidate as stored in the AI cache and returned
by both endpoints.  Meanings are JSON-shaped because `get_meaning` can
cache and return whatever the dictionary payload held under
`"definition"`. -/
structure Cand where
  word : List Char
  meaning : Json

/-- Sequentially enrich each matching word with `get_meaning`, threading
the dictionary cache (the list comprehension in
`find_matches_with_meanings`). -/
def mapGetMeaning (orc : List Char → HttpResult) :
    List (List Char) → DictCache → List Cand × DictCache
  | [], dc => ([], dc)
  | w :: ws, dc =>
    let r := get_meaning orc w dc
    let rest := mapGetMeaning orc ws r.2.1
    (⟨w, r.1⟩ :: rest.1, rest.2)

/-- `find_matches_with_meanings(pattern)`: filter the word index by the
pattern's regex, truncate to the configured limit, and enrich. -/
def find_matches_with_meanings (wordList : List (List Char)) (limit : Nat)
    (orc : List Char → HttpResult) (pattern : List Char) (dc : DictCache) :
    List Cand × DictCache :=
  let found := (patternMatches wordList pattern).take limit
  mapGetMeaning orc found dc

/-- `WORD_LIST` loading: strip and lowercase each line of `words.txt`,
keeping the lines whose stripped form is non-empty. -/
def loadWords (lines : List (List Char)) : List (List Char) :=
  (lines.filter (fun l => !(strip l).isEmpty)).map (fun l => strLower (strip l))

/-- The uncaught Python exception the resolver pipeline can raise
(`.lower()`/`.strip()`/`.get` on a non-string / non-dict). -/
inductive PyErr where
  | attributeError

/-- Outcome of the model call followed by `json.loads`:
`exn msg` — the API call or the parse raised an exception with text `msg`
(caught by the `except` that builds the error entry); `json j` — the
returned text parsed successfully to `j`. -/
inductive ModelResult where
  | exn (msg : List Char)
  | json (j : Json)

/-- One `_ai_cache` entry: a timestamp and the stored result list. -/
structure CacheEntry where
  ts : Int
  data : List Cand

/-- The clue cache `_ai_cache`. -/
abbrev AiCache := List (List Char × CacheEntry)

/-- The two process-wide caches. -/
structure AppState where
  aiCache : AiCache
  dictCache : DictCache

/-- Python `pattern or ""` for the optional pattern argument. -/
def pyOpt : Option (List Char) → List Char
  | none => []
  | some s => s

/-- Python truthiness of the optional pattern (`if pattern:`). -/
def optTruthy : Option (List Char) → Bool
  | none => false
  | some s => !s.isEmpty

/-- The clue-cache key: `f"{clue.strip()}|{(pattern or '').strip()}".lower()`. -/
def aiCacheKey (clue : List Char) (pattern : Option (List Char)) : List Char :=
  strLower (strip clue ++ '|' :: strip (pyOpt pattern))

/-- The cache probe at the top of `ai_guess_clue`: the stored data if an
entry exists and `now - ts < ttl`, else `none`. -/
def cacheFresh (c : AiCache) (k : List Char) (now ttl : Int) :
    Option (List Cand) :=
  match alookup c k with
  | some e => if now - e.ts < ttl then some e.data else none
  | none => none

/-- The error entry built by the `except` branch of the model call. -/
def aiErrorEntry (msg : List Char) : Json :=
  .obj [("word".toList, .str "Error".toList),
        ("meaning".toList, .str ("AI error: ".toList ++ msg))]

/-- `[g for g in guesses if isinstance(g, dict) and "word" in g and
rx.match(g["word"].lower())]`: non-dicts and dicts without `"word"` are
dropped silently, but `.lower()` on a non-string word raises. -/
def filterByPattern (p : List Char) : List Json → Except PyErr (List Json)
  | [] => .ok []
  | g :: gs =>
    match g with
    | .obj kvs =>
      match alookup kvs "word".toList with
      | some (.str s) =>
        match filterByPattern p gs with
        | .error e => .error e
        | .ok rest => .ok (if rxMatch p (strLower s) then g :: rest else rest)
      | some _ => .error .attributeError
      | none => filterByPattern p gs
    | _ => filterByPattern p gs

/-- `if guesses and pattern:` around the filter. -/
def filterStep (pattern : Option (List Char)) (gs : List Json) :
    Except PyErr (List Json) :=
  if !gs.isEmpty && optTruthy pattern then filterByPattern (pyOpt pattern) gs
  else .ok gs

/-- A pattern-search result as the dict `ai_guess_clue` then processes. -/
def candToJson (c : Cand) : Json :=
  .obj [("word".toList, .str c.word), ("meaning".toList, c.meaning)]

/-- `if (not guesses) and pattern: guesses = find_matches_with_meanings(pattern)`. -/
def fallbackStep (wordList : List (List Char)) (limit : Nat)
    (orc : List Char → HttpResult) (pattern : Option (List Char))
    (gs : List Json) (dc : DictCache) : List Json × DictCache :=
  if gs.isEmpty && optTruthy pattern then
    let r := find_matches_with_meanings wordList limit orc (pyOpt pattern) dc
    (r.1.map candToJson, r.2)
  else (gs, dc)

/-- The enrichment loop of `ai_guess_clue`:
`word = (g.get("word") or "").strip()` (skip if empty),
`meaning = g.get("meaning", "").strip()`, replaced by `get_meaning(word)`
when shorter than 5 characters or starting (case-insensitively) with
`"ai error"`.  `.get` on a non-dict and `.strip()` on a truthy non-string
raise `AttributeError`. -/
def enrichStep (orc : List Char → HttpResult) :
    List Json → DictCache → Except PyErr (List Cand × DictCache)
  | [], dc => .ok ([], dc)
  | g :: gs, dc =>
    match g with
    | .obj kvs =>
      let wv := (alookup kvs "word".toList).getD Json.null
      match (if truthy wv then wv else Json.str []) with
      | .str ws =>
        let word := strip ws
        if word.isEmpty then enrichStep orc gs dc
        else
          match (alookup kvs "meaning".toList).getD (Json.str []) with
          | .str ms =>
            let meaning := strip ms
            if meaning.length < 5 ||
                "ai error".toList.isPrefixOf (strLower meaning) then
              let r := get_meaning orc word dc
              match enrichStep orc gs r.2.1 with
              | .error e => .error e
              | .ok rest => .ok (⟨word, r.1⟩ :: rest.1, rest.2)
            else
              match enrichStep orc gs dc with
              | .error e => .error e
              | .ok rest => .ok (⟨word, .str meaning⟩ :: rest.1, rest.2)
          | _ => .error .attributeError
      | _ => .error .attributeError
    | _ => .error .attributeError

/-- The guess list before filtering: if the client is configured, the
parsed model output — the error entry when the call (or `json.loads`)
raised, the parsed list when the text is a JSON list, and `[]` otherwise;
`[]` when the client is unconfigured (the model is never invoked). -/
def modelGuesses (configured : Bool) (mr : ModelResult) : List Json :=
  if configured then
    match mr with
    | .exn msg => [aiErrorEntry msg]
    | .json (.arr l) => l
    | .json _ => []
  else []

/-- `ai_guess_clue(clue, pattern)`.  Parameters: the word index, the
result limit, the TTL, whether an OpenAI client and key are configured,
the model-call outcome `mr`, the dictionary oracle `orc`, the arguments,
the current time, and the two caches.  Returns the enriched list, the new
state, and whether the model service was invoked. -/
def ai_guess_clue (wordList : List (List Char)) (limit : Nat) (ttl : Int)
    (configured : Bool) (mr : ModelResult) (orc : List Char → HttpResult)
    (clue : List Char) (pattern : Option (List Char)) (now : Int)
    (st : AppState) : Except PyErr (List Cand × AppState × Bool) :=
  let key := aiCacheKey clue pattern
  match cacheFresh st.aiCache key now ttl with
  | some data => .ok (data, st, false)
  | none =>
    let guesses0 : List Json := modelGuesses configured mr
    match filterStep pattern guesses0 with
    | .error e => .error e
    | .ok guesses1 =>
      let fb := fallbackStep wordList limit orc pattern guesses1 st.dictCache
      match enrichStep orc fb.1 fb.2 with
      | .error e => .error e
      | .ok res =>
        .ok (res.1, ⟨ainsert st.aiCache key ⟨now, res.1⟩, res.2⟩, configured)

/-- A dictionary lookup that fails in the sense of the spec: network
error/timeout, non-200 status, unparseable payload, or a payload in which
the nested definition walk finds nothing. -/
def lookupFailed : HttpResult → Bool
  | .exn => true
  | .ok status body =>
    if status = 200 then
      match body with
      | none => true
      | some data => (extractDefinition data).isNone
    else true

theorem alookup_ainsert_self {α : Type} (l : List (List Char × α))
    (k : List Char) (v : α) : alookup (ainsert l k v) k = some v := by
  simp [alookup, ainsert]

theorem alookup_ainsert_ne {α : Type} (l : List (List Char × α))
    (k k' : List Char) (v : α) (h : k ≠ k') :
    alookup (ainsert l k v) k' = alookup l k' := by
  simp [alookup, ainsert, h]

/-- A failing lookup yields the sentinel. -/
theorem lookupFailed_responseMeaning (r : HttpResult)
    (h : lookupFailed r = true) : responseMeaning r = sentinelJ := by
  cases r with
  | exn => rfl
  | ok status body =>
    simp only [lookupFailed] at h
    simp only [responseMeaning]
    by_cases hs : status = 200
    · rw [if_pos hs] at h ⊢
      cases body with
      | none => rfl
      | some data =>
        have h' : (extractDefinition data).isNone = true := by simpa using h
        show (extractDefinition data).getD sentinelJ = sentinelJ
        rw [Option.isNone_iff_eq_none] at h'
        simp [h']
    · rw [if_neg hs]

/-- After any `get_meaning` call, the returned meaning is cached under the
lowercased word. -/
theorem get_meaning_cached (orc : List Char → HttpResult) (word : List Char)
    (dc : DictCache) :
    alookup (get_meaning orc word dc).2.1 (strLower word)
      = some (get_meaning orc word dc).1 := by
  unfold get_meaning
  cases h : alookup dc (strLower word) with
  | some m => simp [h]
  | none => simp [h, alookup_ainsert_self]

/-- `get_meaning` never removes or overwrites an existing cache entry. -/
theorem get_meaning_mono (orc : List Char → HttpResult) (w : List Char)
    (dc : DictCache) (k : List Char) (v : Json) (h : alookup dc k = some v) :
    alookup (get_meaning orc w dc).2.1 k = some v := by
  unfold get_meaning
  cases hw : alookup dc (strLower w) with
  | some m => simpa [hw]
  | none =>
    have hne : strLower w ≠ k := by
      intro he
      rw [he, h] at hw
      cases hw
    simp [hw, alookup_ainsert_ne _ _ _ _ hne, h]

/-- The enrichment comprehension of `find_matches_with_meanings` keeps
exactly the matched words, in order. -/
theorem mapGetMeaning_words (orc : List Char → HttpResult)
    (ws : List (List Char)) (dc : DictCache) :
    (mapGetMeaning orc ws dc).1.map Cand.word = ws := by
  induction ws generalizing dc with
  | nil => rfl
  | cons w t ih => simp [mapGetMeaning, ih]

/-- `mapGetMeaning` never removes or overwrites an existing cache entry. -/
theorem mapGetMeaning_mono (orc : List Char → HttpResult)
    (ws : List (List Char)) (dc : DictCache) (k : List Char) (v : Json)
    (h : alookup dc k = some v) :
    alookup (mapGetMeaning orc ws dc).2 k = some v := by
  induction ws generalizing dc with
  | nil => simpa [mapGetMeaning]
  | cons w t ih =>
    simp only [mapGetMeaning]
    exact ih _ (get_meaning_mono orc w dc k v h)

/-- Every candidate produced by `mapGetMeaning` has its meaning cached in
the final dictionary cache under its lowercased word. -/
theorem mapGetMeaning_cached (orc : List Char → HttpResult)
    (ws : List (List Char)) (dc : DictCache) :
    ∀ c ∈ (mapGetMeaning orc ws dc).1,
      alookup (mapGetMeaning orc ws dc).2 (strLower c.word) = some c.meaning := by
  induction ws generalizing dc with
  | nil => intro c hc; cases hc
  | cons w t ih =>
    intro c hc
    simp only [mapGetMeaning, List.mem_cons] at hc ⊢
    rcases hc with rfl | hc
    · exact mapGetMeaning_mono orc t _ _ _ (get_meaning_cached orc w dc)
    · exact ih _ c hc

/-- A successful `ai_guess_clue` call that did not hit a fresh cache entry
stores its result under its key with timestamp `now`. -/
theorem ai_guess_clue_stores
    (wordList : List (List Char)) (limit : Nat) (ttl : Int) (configured : Bool)
    (mr : ModelResult) (orc : List Char → HttpResult) (clue : List Char)
    (pattern : Option (List Char)) (now : Int) (st : AppState)
    (r : List Cand) (st' : AppState) (inv : Bool)
    (hmiss : cacheFresh st.aiCache (aiCacheKey clue pattern) now ttl = none)
    (h : ai_guess_clue wordList limit ttl configured mr orc clue pattern now st
          = .ok (r, st', inv)) :
    alookup st'.aiCache (aiCacheKey clue pattern) = some ⟨now, r⟩ := by
  simp only [ai_guess_clue] at h
  rw [hmiss] at h
  simp only at h
  split at h
  · cases h
  · split at h
    · cases h
    · rename_i res heq
      injection h with h1
      injection h1 with hr h2
      injection h2 with hst hinv
      subst hr
      rw [← hst]
      exact alookup_ainsert_self _ _ _

/-- A call that finds an unexpired entry returns its data verbatim,
leaves the state unchanged and does not invoke the model. -/
theorem ai_guess_clue_hit
    (wordList : List (List Char)) (limit : Nat) (ttl : Int) (configured : Bool)
    (mr : ModelResult) (orc : List Char → HttpResult) (clue : List Char)
    (pattern : Option (List Char)) (now : Int) (st : AppState)
    (t0 : Int) (d : List Cand)
    (hl : alookup st.aiCache (aiCacheKey clue pattern) = some ⟨t0, d⟩)
    (hts : now - t0 < ttl) :
    ai_guess_clue wordList limit ttl configured mr orc clue pattern now st
      = .ok (d, st, false) := by
  have hfresh : cacheFresh st.aiCache (aiCacheKey clue pattern) now ttl
      = some d := by
    unfold cacheFresh
    rw [hl]
    simp [hts]
  simp only [ai_guess_clue]
  rw [hfresh]

theorem dropWhile_dropWhile (p : Char → Bool) (l : List Char) :
    (l.dropWhile p).dropWhile p = l.dropWhile p := by
  induction l with
  | nil => rfl
  | cons c t ih =>
    by_cases h : p c
    · simp [List.dropWhile_cons, h, ih]
    · simp [List.dropWhile_cons, h]

theorem dropWhile_suffix_append (p : Char → Bool) (l : List Char) :
    ∃ t, t ++ l.dropWhile p = l := by
  induction l with
  | nil => exact ⟨[], rfl⟩
  | cons c t ih =>
    by_cases h : p c
    · obtain ⟨u, hu⟩ := ih
      exact ⟨c :: u, by simpa [List.dropWhile_cons, h] using hu⟩
    · exact ⟨[], by simp [List.dropWhile_cons, h]⟩

theorem dropWhile_eq_self_of_prefix (p : Char → Bool) (x y : List Char)
    (hxy : x <+: y) (hy : y.dropWhile p = y) : x.dropWhile p = x := by
  cases x with
  | nil => rfl
  | cons c t =>
    obtain ⟨u, hu⟩ := hxy
    have hc : p c = false := by
      by_contra hpc
      rw [Bool.not_eq_false] at hpc
      rw [← hu, List.cons_append, List.dropWhile_cons, if_pos hpc] at hy
      have hlen := congrArg List.length hy
      have hle : ((t ++ u).dropWhile p).length ≤ (t ++ u).length :=
        (List.dropWhile_suffix p).length_le
      simp only [List.length_cons] at hlen
      omega
    simp [List.dropWhile_cons, hc]

/-- A stripped string has no leading whitespace. -/
theorem strip_noLead (s : List Char) :
    (strip s).dropWhile isSpace = strip s := by
  have hy : (s.dropWhile isSpace).dropWhile isSpace = s.dropWhile isSpace :=
    dropWhile_dropWhile _ _
  have hpref : strip s <+: s.dropWhile isSpace := by
    obtain ⟨t, ht⟩ :=
      dropWhile_suffix_append isSpace (s.dropWhile isSpace).reverse
    have h2 := congrArg List.reverse ht
    rw [List.reverse_append, List.reverse_reverse] at h2
    exact ⟨t.reverse, h2⟩
  exact dropWhile_eq_self_of_prefix _ _ _ hpref hy

/-- Python's `strip` is idempotent. -/
theorem strip_strip (s : List Char) : strip (strip s) = strip s := by
  have h1 : (strip s).dropWhile isSpace = strip s := strip_noLead s
  show ((((strip s).dropWhile isSpace).reverse).dropWhile isSpace).reverse
      = strip s
  rw [h1]
  have h2 : (strip s).reverse
      = ((s.dropWhile isSpace).reverse).dropWhile isSpace := by
    simp [strip]
  rw [h2, dropWhile_dropWhile]
  simp [strip]

/-- Every candidate surviving the enrichment loop has a non-empty,
whitespace-trimmed word. -/
theorem enrichStep_words (orc : List Char → HttpResult) (gs : List Json)
    (dc : DictCache) (res : List Cand × DictCache)
    (h : enrichStep orc gs dc = .ok res) :
    ∀ c ∈ res.1, c.word ≠ [] ∧ strip c.word = c.word := by
  induction gs generalizing dc res with
  | nil =>
    simp only [enrichStep] at h
    injection h with h
    subst h
    intro c hc
    cases hc
  | cons g gs ih =>
    simp only [enrichStep] at h
    split at h
    · rename_i kvs
      split at h
      · rename_i ws hws
        split at h
        · exact ih _ _ h
        · rename_i hne
          split at h
          · rename_i ms hms
            split at h
            · split at h
              · cases h
              · rename_i rest heq
                injection h with h
                subst h
                intro c hc
                rcases List.mem_cons.mp hc with rfl | hc
                · exact ⟨by simpa using hne, strip_strip ws⟩
                · exact ih _ _ heq c hc
            · split at h
              · cases h
              · rename_i rest heq
                injection h with h
                subst h
                intro c hc
                rcases List.mem_cons.mp hc with rfl | hc
                · exact ⟨by simpa using hne, strip_strip ws⟩
                · exact ih _ _ heq c hc
          · cases h
      · cases h
    · cases h

/-- Cache hit in `get_meaning`: return the cached value, unchanged state,
no external request. -/
theorem get_meaning_hit (orc : List Char → HttpResult) (w : List Char)
    (dc : DictCache) (m : Json) (h : alookup dc (strLower w) = some m) :
    get_meaning orc w dc = (m, dc, false) := by
  simp only [get_meaning]
  rw [h]

/-- The word list of the spec's running example. -/
def exampleWordList : List (List Char) :=
  ["cat".toList, "car".toList, "cot".toList, "dog".toList]

/-- A dictionary oracle whose every request fails with a network error. -/
def failOracle : List Char → HttpResult := fun _ => .exn

/-- Empty caches. -/
def emptyState : AppState := ⟨[], []⟩

/-- C6: `get_meaning` is idempotent: for every word, two consecutive calls
return the same value, and the second call is a cache hit that performs no
external request (and leaves the cache unchanged). -/
theorem c6_get_meaning_idempotent (orc : List Char → HttpResult)
    (word : List Char) (dc : DictCache) :
    get_meaning orc word ((get_meaning orc word dc).2.1)
      = ((get_meaning orc word dc).1, (get_meaning orc word dc).2.1, false) := by
  exact get_meaning_hit orc word _ _ (get_meaning_cached orc word dc)

/-- C8: `find_matches_with_meanings` returns exactly the first
`min(limit, number of matches)` matching words in word-index order; in
particular its length never exceeds the limit. -/
theorem c8_solve_truncation (wordList : List (List Char)) (limit : Nat)
    (orc : List Char → HttpResult) (pattern : List Char) (dc : DictCache) :
    (find_matches_with_meanings wordList limit orc pattern dc).1.map Cand.word
        = (patternMatches wordList pattern).take limit ∧
    (find_matches_with_meanings wordList limit orc pattern dc).1.length
        = min limit (patternMatches wordList pattern).length ∧
    (find_matches_with_meanings wordList limit orc pattern dc).1.length
        ≤ limit := by
  have h1 : (find_matches_with_meanings wordList limit orc pattern dc).1.map
      Cand.word = (patternMatches wordList pattern).take limit :=
    mapGetMeaning_words orc _ dc
  have h2 := congrArg List.length h1
  rw [List.length_map, List.length_take] at h2
  exact ⟨h1, h2, by omega⟩

/-- C5: when the external dictionary lookup fails in any way (network
error, timeout, malformed payload, non-200 status, or a payload without
the nested definition), `get_meaning` on an uncached word returns exactly
the sentinel, caches it, and a repeated call returns the sentinel from the
cache without a new external request. -/
theorem c5_failed_lookup_sentinel (orc : List Char → HttpResult)
    (word : List Char) (dc : DictCache)
    (hmiss : alookup dc (strLower word) = none)
    (hfail : lookupFailed (orc (strLower word)) = true) :
    (get_meaning orc word dc).1 = sentinelJ ∧
    alookup (get_meaning orc word dc).2.1 (strLower word) = some sentinelJ ∧
    get_meaning orc word ((get_meaning orc word dc).2.1)
      = (sentinelJ, (get_meaning orc word dc).2.1, false) := by
  have hs := lookupFailed_responseMeaning _ hfail
  have h1 : get_meaning orc word dc
      = (sentinelJ, ainsert dc (strLower word) sentinelJ, true) := by
    simp only [get_meaning]
    rw [hmiss, hs]
  refine ⟨by rw [h1], ?_, ?_⟩
  · rw [h1]
    exact alookup_ainsert_self _ _ _
  · rw [h1]
    exact get_meaning_hit orc word _ _ (alookup_ainsert_self _ _ _)

/-- Witness for C5 at a concrete input. -/
theorem c5_failed_lookup_sentinel_witness :
    (get_meaning failOracle "cat".toList []).1 = sentinelJ ∧
    alookup (get_meaning failOracle "cat".toList []).2.1
      (strLower "cat".toList) = some sentinelJ ∧
    get_meaning failOracle "cat".toList
        ((get_meaning failOracle "cat".toList []).2.1)
      = (sentinelJ, (get_meaning failOracle "cat".toList []).2.1, false) :=
  c5_failed_lookup_sentinel failOracle "cat".toList [] rfl rfl

/-- C1, evaluated at the failing input: in the word list of the spec's
example, "cat" has the length of the pattern "c_t" and agrees with it on
every non-wildcard position, yet the computed match set is empty — on the
Python version this file requires, `re.escape` does not escape `_`, so the
`replace("\\_", ".")` never fires and `_` matches only a literal
underscore.  The `?` wildcard still works as documented. -/
theorem c1_underscore_wildcard_broken :
    "cat".toList ∈ exampleWordList ∧
    "cat".toList.length = "c_t".toList.length ∧
    (∀ i, i < "c_t".toList.length → "c_t".toList.getD i ' ' ≠ '_' →
      "c_t".toList.getD i ' ' ≠ '?' →
      asciiLower ("c_t".toList.getD i ' ')
        = asciiLower ("cat".toList.getD i ' ')) ∧
    patternMatches exampleWordList "c_t".toList = [] ∧
    patternMatches exampleWordList "c?t".toList
      = ["cat".toList, "cot".toList] := by
  refine ⟨by decide, by decide, by decide, rfl, rfl⟩

/-- The clue-cache key of the C4 counterexample call. -/
def c4Key : List Char := "x|".toList

/-- State after the first C4 counterexample call. -/
def c4St1 : AppState := ⟨[(c4Key, ⟨0, []⟩)], []⟩

/-- C4 counterexample: with TTL 3600, a call at t=0 stores its result; a
second call at t=3599 is a cache hit; a third call at t=3600 — only one
second after the previous call, so well within the TTL of "the first call"
of that pair — finds the entry expired and invokes the model again. -/
theorem c4_ttl_cex :
    ((3600 : Int) - 3599 < 3600) ∧
    ai_guess_clue exampleWordList 50 3600 true (.json (.arr [])) failOracle
      "x".toList none 0 emptyState = .ok ([], c4St1, true) ∧
    ai_guess_clue exampleWordList 50 3600 true (.json (.arr [])) failOracle
      "x".toList none 3599 c4St1 = .ok ([], c4St1, false) ∧
    (ai_guess_clue exampleWordList 50 3600 true (.json (.arr [])) failOracle
      "x".toList none 3600 c4St1).map (fun r => r.2.2) = .ok true :=
  ⟨by decide, rfl, rfl, rfl⟩

/-- C4 amended: measured from the timestamp stored with the entry — the
time `t0` of the call that actually computed and stored the result — any
later call within the TTL returns the stored sequence byte-identically,
leaves the state unchanged, and performs no model invocation (whatever
the model would answer); only after expiry can the model be invoked
again. -/
theorem c4_ttl_from_store (wordList : List (List Char)) (limit : Nat)
    (ttl : Int) (configured : Bool) (mr1 mr2 : ModelResult)
    (orc : List Char → HttpResult) (clue : List Char)
    (pattern : Option (List Char)) (t0 t1 : Int) (st st1 : AppState)
    (r1 : List Cand) (inv1 : Bool)
    (hmiss : cacheFresh st.aiCache (aiCacheKey clue pattern) t0 ttl = none)
    (h1 : ai_guess_clue wordList limit ttl configured mr1 orc clue pattern
            t0 st = .ok (r1, st1, inv1))
    (hts : t1 - t0 < ttl) :
    ai_guess_clue wordList limit ttl configured mr2 orc clue pattern t1 st1
      = .ok (r1, st1, false) := by
  have hstore := ai_guess_clue_stores wordList limit ttl configured mr1 orc
    clue pattern t0 st r1 st1 inv1 hmiss h1
  exact ai_guess_clue_hit wordList limit ttl configured mr2 orc clue pattern
    t1 st1 t0 r1 hstore hts

/-- Witness for C4 (amended) at a concrete input. -/
theorem c4_ttl_from_store_witness :
    ai_guess_clue exampleWordList 50 3600 true (.json (.arr [])) failOracle
      "x".toList none 3599 c4St1 = .ok ([], c4St1, false) :=
  c4_ttl_from_store exampleWordList 50 3600 true (.json (.arr []))
    (.json (.arr [])) failOracle "x".toList none 0 3599 emptyState c4St1 []
    true rfl rfl (by decide)

/-- C9 counterexample: the claim's example pair does NOT share a key —
the key of clue `"feline pet|c_t"` with no pattern carries a trailing
separator (`"feline pet|c_t|"`), while clue `"feline pet"` with pattern
`"c_t"` yields `"feline pet|c_t"`. -/
theorem c9_example_keys_cex :
    aiCacheKey "feline pet|c_t".toList none
      ≠ aiCacheKey "feline pet".toList (some "c_t".toList) := by
  decide

/-- C9 amended: the key really is the lowercased `clue|pattern`
concatenation and is not injective: clue `"feline pet|c_t"` with no
pattern and clue `"feline pet"` with pattern `"c_t|"` share a key, so a
call with the second input within the TTL of a stored result for the
first returns the sequence stored for the other input, without invoking
the model. -/
theorem c9_key_collision (wordList : List (List Char)) (limit : Nat)
    (ttl : Int) (configured : Bool) (mr1 mr2 : ModelResult)
    (orc : List Char → HttpResult) (t0 t1 : Int) (st st1 : AppState)
    (r1 : List Cand) (inv1 : Bool)
    (hmiss : cacheFresh st.aiCache
      (aiCacheKey "feline pet|c_t".toList none) t0 ttl = none)
    (h1 : ai_guess_clue wordList limit ttl configured mr1 orc
      "feline pet|c_t".toList none t0 st = .ok (r1, st1, inv1))
    (hts : t1 - t0 < ttl) :
    aiCacheKey "feline pet|c_t".toList none
      = aiCacheKey "feline pet".toList (some "c_t|".toList) ∧
    ai_guess_clue wordList limit ttl configured mr2 orc
      "feline pet".toList (some "c_t|".toList) t1 st1
      = .ok (r1, st1, false) := by
  have hkey : aiCacheKey "feline pet".toList (some "c_t|".toList)
      = aiCacheKey "feline pet|c_t".toList none := by decide
  have hstore := ai_guess_clue_stores wordList limit ttl configured mr1 orc
    "feline pet|c_t".toList none t0 st r1 st1 inv1 hmiss h1
  refine ⟨hkey.symm, ?_⟩
  refine ai_guess_clue_hit wordList limit ttl configured mr2 orc
    "feline pet".toList (some "c_t|".toList) t1 st1 t0 r1 ?_ hts
  rw [hkey]
  exact hstore

/-- State after the first C9 witness call. -/
def c9St1 : AppState := ⟨[("feline pet|c_t|".toList, ⟨0, []⟩)], []⟩

/-- Witness for C9 (amended) at a concrete input. -/
theorem c9_key_collision_witness :
    aiCacheKey "feline pet|c_t".toList none
      = aiCacheKey "feline pet".toList (some "c_t|".toList) ∧
    ai_guess_clue exampleWordList 50 10 false (.json .null) failOracle
      "feline pet".toList (some "c_t|".toList) 1 c9St1
      = .ok ([], c9St1, false) :=
  c9_key_collision exampleWordList 50 10 false (.json .null) (.json .null)
    failOracle 0 1 emptyState c9St1 [] false rfl rfl (by decide)

/-- C10 counterexample: with a pattern supplied, a candidate whose
`"word"` value is None is not dropped silently — `g["word"].lower()`
raises `AttributeError`, which propagates out of `ai_guess_clue`. -/
theorem c10_null_word_cex :
    ai_guess_clue exampleWordList 50 3600 true
      (.json (.arr [.obj [("word".toList, .null)]])) failOracle
      "x".toList (some "c?t".toList) 0 emptyState
      = .error .attributeError := rfl

/-- C10 amended: whenever a freshly computed `ai_guess_clue` call returns
successfully, every entry of the returned sequence has a non-empty,
whitespace-trimmed word (missing/falsy/whitespace-only words are dropped
during enrichment; but with a pattern a present non-string word raises
instead of being dropped). -/
theorem c10_nonempty_words (wordList : List (List Char)) (limit : Nat)
    (ttl : Int) (configured : Bool) (mr : ModelResult)
    (orc : List Char → HttpResult) (clue : List Char)
    (pattern : Option (List Char)) (now : Int) (st : AppState)
    (out : List Cand) (st' : AppState) (inv : Bool)
    (hmiss : cacheFresh st.aiCache (aiCacheKey clue pattern) now ttl = none)
    (h : ai_guess_clue wordList limit ttl configured mr orc clue pattern now
          st = .ok (out, st', inv)) :
    ∀ c ∈ out, c.word ≠ [] ∧ strip c.word = c.word := by
  simp only [ai_guess_clue] at h
  rw [hmiss] at h
  simp only at h
  split at h
  · cases h
  · split at h
    · cases h
    · rename_i res heq
      injection h with h1
      injection h1 with hr h2
      subst hr
      exact enrichStep_words orc _ _ res heq

/-- Witness for C10 (amended) at a concrete input: the word " cat " is
returned trimmed and non-empty. -/
theorem c10_nonempty_words_witness :
    (Cand.mk "cat".toList (.str "small feline animal".toList)).word ≠ [] ∧
    strip (Cand.mk "cat".toList (.str "small feline animal".toList)).word
      = (Cand.mk "cat".toList (.str "small feline animal".toList)).word :=
  c10_nonempty_words exampleWordList 50 3600 true
    (.json (.arr [.obj [("word".toList, .str " cat ".toList),
      ("meaning".toList, .str "small feline animal".toList)]]))
    failOracle "x".toList none 0 emptyState
    [Cand.mk "cat".toList (.str "small feline animal".toList)]
    ⟨[("x|".toList,
       ⟨0, [Cand.mk "cat".toList (.str "small feline animal".toList)]⟩)], []⟩
    true rfl rfl
    (Cand.mk "cat".toList (.str "small feline animal".toList))
    (List.mem_cons_self _ _)

/-- C2 counterexample: the model returns the valid JSON list `[42]`; with
no pattern supplied, enrichment calls `.get` on the integer element and
`ai_guess_clue` raises `AttributeError` instead of returning a list. -/
theorem c2_nonobject_cex :
    ai_guess_clue exampleWordList 50 3600 true (.json (.arr [.num 42]))
      failOracle "x".toList none 0 emptyState = .error .attributeError := rfl

/-- C7 counterexample: a model-supplied meaning of length ≥ 5 that is not
the failure indicator (it is not of the form `"AI error: " ++ msg`) is
nevertheless replaced by a dictionary lookup, because the code tests
`meaning.lower().startswith("ai error")` rather than equality with the
indicator. -/
theorem c7_meaning_replaced_cex :
    (ai_guess_clue exampleWordList 50 3600 true
      (.json (.arr [.obj [("word".toList, .str "cat".toList),
                          ("meaning".toList, .str "AI Errorific cat".toList)]]))
      failOracle "x".toList none 0 emptyState).map (fun r => r.1)
      = .ok [⟨"cat".toList, sentinelJ⟩] ∧
    ¬ ("AI Errorific cat".toList.length < 5) ∧
    (∀ msg : List Char,
      "AI Errorific cat".toList ≠ "AI error: ".toList ++ msg) ∧
    sentinelJ ≠ Json.str "AI Errorific cat".toList := by
  refine ⟨rfl, by decide, ?_, ?_⟩
  · intro msg h
    have h10 := congrArg (List.take 10) h
    have hl : List.take 10 ("AI error: ".toList ++ msg)
        = "AI error: ".toList := List.take_left' (by decide)
    rw [hl] at h10
    exact absurd h10 (by decide)
  · intro h
    simp only [sentinelJ] at h
    injection h with h'
    exact absurd h' (by decide)

/-- C7 amended: for a surviving candidate (an object whose word is a
string with non-empty trimmed form, and whose meaning is a string or
absent — absent reads as the empty string), the enrichment keeps the
trimmed model-supplied meaning, except that when the trimmed meaning is
shorter than 5 characters or its lowercased form starts with "ai error"
(which covers both the absent case and the model-failure indicator) it is
replaced by the Definition Cache lookup `get_meaning` for the trimmed
word. -/
theorem c7_enrich_rule (orc : List Char → HttpResult)
    (kvs : List (List Char × Json)) (gs : List Json) (dc : DictCache)
    (w m : List Char)
    (hw : alookup kvs "word".toList = some (.str w))
    (hwne : strip w ≠ [])
    (hm : alookup kvs "meaning".toList = some (.str m) ∨
          (alookup kvs "meaning".toList = none ∧ m = [])) :
    enrichStep orc (Json.obj kvs :: gs) dc =
      (if (decide ((strip m).length < 5) ||
           "ai error".toList.isPrefixOf (strLower (strip m))) = true then
        (enrichStep orc gs (get_meaning orc (strip w) dc).2.1).map
          (fun rest =>
            (⟨strip w, (get_meaning orc (strip w) dc).1⟩ :: rest.1, rest.2))
      else
        (enrichStep orc gs dc).map
          (fun rest => (⟨strip w, .str (strip m)⟩ :: rest.1, rest.2))) := by
  have hwne' : w ≠ [] := by
    intro h
    rw [h] at hwne
    exact hwne rfl
  have hwv : (alookup kvs "word".toList).getD Json.null = Json.str w := by
    rw [hw]
    rfl
  have hmv : (alookup kvs "meaning".toList).getD (Json.str [])
      = Json.str m := by
    rcases hm with hm | ⟨hm, rfl⟩ <;> rw [hm] <;> rfl
  have htr : truthy (Json.str w) = true := by
    simp [truthy, hwne']
  have h1 : (if truthy ((alookup kvs "word".toList).getD Json.null) = true
      then (alookup kvs "word".toList).getD Json.null else Json.str [])
      = Json.str w := by
    rw [hwv, htr]
    rfl
  have hie : (strip w).isEmpty = false := by
    simp [hwne]
  simp only [enrichStep, h1, hmv, hie, Bool.false_eq_true, if_false]
  by_cases hweak : (decide ((strip m).length < 5) ||
      "ai error".toList.isPrefixOf (strLower (strip m))) = true
  · simp only [if_pos hweak]
    cases henr : enrichStep orc gs (get_meaning orc (strip w) dc).2.1 with
    | error e => rfl
    | ok rest => rfl
  · simp only [if_neg hweak]
    cases henr : enrichStep orc gs dc with
    | error e => rfl
    | ok rest => rfl

/-- Witness for C7 (amended) at a concrete input: meaning "hi" is below
the quality threshold, so it is replaced by the dictionary lookup. -/
theorem c7_enrich_rule_witness :
    enrichStep failOracle
      [Json.obj [("word".toList, .str "cat".toList),
                 ("meaning".toList, .str "hi".toList)]] [] =
      (if (decide ((strip "hi".toList).length < 5) ||
           "ai error".toList.isPrefixOf (strLower (strip "hi".toList)))
          = true then
        (enrichStep failOracle []
            (get_meaning failOracle (strip "cat".toList) []).2.1).map
          (fun rest =>
            (⟨strip "cat".toList,
              (get_meaning failOracle (strip "cat".toList) []).1⟩ :: rest.1,
             rest.2))
      else
        (enrichStep failOracle [] []).map
          (fun rest =>
            (⟨strip "cat".toList, .str (strip "hi".toList)⟩ :: rest.1,
             rest.2))) :=
  c7_enrich_rule failOracle
    [("word".toList, .str "cat".toList), ("meaning".toList, .str "hi".toList)]
    [] [] "cat".toList "hi".toList rfl (by decide) (Or.inl rfl)

/-- One-step unfolding of the enrichment loop on an object whose word and
meaning are strings (the word may still be dropped if its trimmed form is
empty). -/
theorem enrichStep_cons_str (orc : List Char → HttpResult)
    (kvs : List (List Char × Json)) (gs : List Json) (dc : DictCache)
    (w m : List Char)
    (hw : alookup kvs "word".toList = some (.str w))
    (hm : alookup kvs "meaning".toList = some (.str m)) :
    enrichStep orc (Json.obj kvs :: gs) dc =
      (if (strip w).isEmpty = true then enrichStep orc gs dc
       else if (decide ((strip m).length < 5) ||
           "ai error".toList.isPrefixOf (strLower (strip m))) = true then
         match enrichStep orc gs (get_meaning orc (strip w) dc).2.1 with
         | .error e => .error e
         | .ok rest =>
           .ok (⟨strip w, (get_meaning orc (strip w) dc).1⟩ :: rest.1, rest.2)
       else
         match enrichStep orc gs dc with
         | .error e => .error e
         | .ok rest => .ok (⟨strip w, .str (strip m)⟩ :: rest.1, rest.2)) := by
  have hwv : (alookup kvs "word".toList).getD Json.null = Json.str w := by
    rw [hw]
    rfl
  have hmv : (alookup kvs "meaning".toList).getD (Json.str [])
      = Json.str m := by
    rw [hm]
    rfl
  have hsel : (if truthy (Json.str w) = true then Json.str w else Json.str [])
      = Json.str w := by
    by_cases htw : truthy (Json.str w) = true
    · rw [htw]
      rfl
    · rw [if_neg htw]
      have hnil : w = [] := by
        by_contra hne
        exact htw (by simp [truthy, hne])
      rw [hnil]
  simp only [enrichStep, hwv, hmv, hsel]

/-- Every cached dictionary value is a Python string. -/
def strCache (dc : DictCache) : Prop := ∀ kv ∈ dc, Json.isStr kv.2 = true

/-- Every dictionary response the oracle can produce yields a string
meaning (true of every failure and of well-formed payloads; only a payload
whose `"definition"` value is itself a non-string escapes it). -/
def strOracle (orc : List Char → HttpResult) : Prop :=
  ∀ w, Json.isStr (responseMeaning (orc w)) = true

theorem alookup_mem {α : Type} (l : List (List Char × α)) (k : List Char)
    (v : α) (h : alookup l k = some v) : (k, v) ∈ l := by
  induction l with
  | nil => cases h
  | cons kv t ih =>
    obtain ⟨k', v'⟩ := kv
    simp only [alookup] at h
    split at h
    · rename_i hk
      injection h with h
      subst hk
      subst h
      exact List.mem_cons_self _ _
    · exact List.mem_cons_of_mem _ (ih h)

theorem isStr_exists (v : Json) (h : Json.isStr v = true) :
    ∃ s, v = .str s := by
  cases v <;> simp [Json.isStr] at h ⊢

/-- `get_meaning` preserves the all-strings cache invariant and returns a
string. -/
theorem get_meaning_strs (orc : List Char → HttpResult) (w : List Char)
    (dc : DictCache) (hdc : strCache dc) (hor : strOracle orc) :
    Json.isStr (get_meaning orc w dc).1 = true ∧
      strCache (get_meaning orc w dc).2.1 := by
  simp only [get_meaning]
  cases h : alookup dc (strLower w) with
  | some m =>
    exact ⟨hdc _ (alookup_mem _ _ _ h), hdc⟩
  | none =>
    refine ⟨hor _, ?_⟩
    intro kv hkv
    simp only [ainsert, List.mem_cons] at hkv
    rcases hkv with rfl | hkv
    · exact hor _
    · exact hdc _ hkv

/-- `mapGetMeaning` preserves the invariant and yields string meanings. -/
theorem mapGetMeaning_strs (orc : List Char → HttpResult)
    (ws : List (List Char)) (dc : DictCache) (hdc : strCache dc)
    (hor : strOracle orc) :
    (∀ c ∈ (mapGetMeaning orc ws dc).1, Json.isStr c.meaning = true) ∧
      strCache (mapGetMeaning orc ws dc).2 := by
  induction ws generalizing dc with
  | nil => exact ⟨fun c hc => absurd hc (List.not_mem_nil _), hdc⟩
  | cons w t ih =>
    obtain ⟨h1, h2⟩ := get_meaning_strs orc w dc hdc hor
    obtain ⟨ih1, ih2⟩ := ih _ h2
    simp only [mapGetMeaning]
    refine ⟨?_, ih2⟩
    intro c hc
    rcases List.mem_cons.mp hc with rfl | hc
    · exact h1
    · exact ih1 c hc

/-- A guess entry whose `"word"` and `"meaning"` values are strings. -/
def wfGuess (g : Json) : Prop :=
  ∃ kvs w m, g = Json.obj kvs ∧
    alookup kvs "word".toList = some (Json.str w) ∧
    alookup kvs "meaning".toList = some (Json.str m)

/-- The error entry is a well-formed guess. -/
theorem aiErrorEntry_wf (msg : List Char) : wfGuess (aiErrorEntry msg) :=
  ⟨_, "Error".toList, "AI error: ".toList ++ msg, rfl, rfl, rfl⟩

/-- The pattern filter never raises on well-formed guesses and returns a
subsequence of its input. -/
theorem filterByPattern_ok_of_wf (p : List Char) (gs : List Json)
    (hwf : ∀ g ∈ gs, wfGuess g) :
    ∃ gs', filterByPattern p gs = .ok gs' ∧ ∀ g ∈ gs', g ∈ gs := by
  induction gs with
  | nil => exact ⟨[], rfl, fun g hg => absurd hg (List.not_mem_nil _)⟩
  | cons g t ih =>
    obtain ⟨kvs, w, m, rfl, hw, hm⟩ := hwf _ (List.mem_cons_self _ _)
    obtain ⟨t', ht', hsub⟩ :=
      ih (fun g hg => hwf g (List.mem_cons_of_mem _ hg))
    refine ⟨if rxMatch p (strLower w) = true then Json.obj kvs :: t' else t',
      ?_, ?_⟩
    · simp only [filterByPattern, hw, ht']
    · intro g hg
      split at hg
      · rcases List.mem_cons.mp hg with rfl | hg
        · exact List.mem_cons_self _ _
        · exact List.mem_cons_of_mem _ (hsub g hg)
      · exact List.mem_cons_of_mem _ (hsub g hg)

/-- The fallback stage yields well-formed guesses and preserves the
all-strings cache invariant. -/
theorem fallbackStep_wf (wordList : List (List Char)) (limit : Nat)
    (orc : List Char → HttpResult) (pattern : Option (List Char))
    (gs : List Json) (dc : DictCache)
    (hwf : ∀ g ∈ gs, wfGuess g) (hdc : strCache dc) (hor : strOracle orc) :
    (∀ g ∈ (fallbackStep wordList limit orc pattern gs dc).1, wfGuess g) ∧
      strCache (fallbackStep wordList limit orc pattern gs dc).2 := by
  unfold fallbackStep
  split
  · obtain ⟨h1, h2⟩ := mapGetMeaning_strs orc
      ((patternMatches wordList (pyOpt pattern)).take limit) dc hdc hor
    refine ⟨?_, h2⟩
    intro g hg
    simp only [find_matches_with_meanings] at hg
    obtain ⟨c, hc, rfl⟩ := List.mem_map.mp hg
    obtain ⟨ms, hms⟩ := isStr_exists _ (h1 c hc)
    exact ⟨_, c.word, ms, rfl, rfl, by simp [candToJson, alookup, hms]⟩
  · exact ⟨hwf, hdc⟩

/-- The enrichment loop never raises on well-formed guesses when the
dictionary layer deals in strings. -/
theorem enrichStep_ok_of_wf (orc : List Char → HttpResult) (gs : List Json)
    (dc : DictCache) (hwf : ∀ g ∈ gs, wfGuess g) (hdc : strCache dc)
    (hor : strOracle orc) :
    ∃ res, enrichStep orc gs dc = .ok res := by
  revert hwf hdc
  induction gs generalizing dc with
  | nil =>
    intro _ _
    exact ⟨([], dc), rfl⟩
  | cons g t ih =>
    intro hwf hdc
    obtain ⟨kvs, w, m, rfl, hw, hm⟩ := hwf _ (List.mem_cons_self _ _)
    have hwf' : ∀ g ∈ t, wfGuess g :=
      fun g hg => hwf g (List.mem_cons_of_mem _ hg)
    rw [enrichStep_cons_str orc kvs t dc w m hw hm]
    by_cases he : (strip w).isEmpty = true
    · rw [if_pos he]
      exact ih dc hwf' hdc
    · rw [if_neg he]
      by_cases hweak : (decide ((strip m).length < 5) ||
          "ai error".toList.isPrefixOf (strLower (strip m))) = true
      · rw [if_pos hweak]
        obtain ⟨_, hs2⟩ := get_meaning_strs orc (strip w) dc hdc hor
        obtain ⟨res, hres⟩ := ih _ hwf' hs2
        rw [hres]
        exact ⟨_, rfl⟩
      · rw [if_neg hweak]
        obtain ⟨res, hres⟩ := ih dc hwf' hdc
        rw [hres]
        exact ⟨_, rfl⟩

/-- The whole post-cache pipeline succeeds on well-formed initial guesses
when the dictionary layer deals in strings. -/
theorem pipeline_ok (wordList : List (List Char)) (limit : Nat)
    (orc : List Char → HttpResult) (pattern : Option (List Char))
    (gs0 : List Json) (dc : DictCache)
    (hwf : ∀ g ∈ gs0, wfGuess g) (hdc : strCache dc) (hor : strOracle orc) :
    ∃ gs1 res, filterStep pattern gs0 = .ok gs1 ∧
      enrichStep orc (fallbackStep wordList limit orc pattern gs1 dc).1
        (fallbackStep wordList limit orc pattern gs1 dc).2 = .ok res := by
  obtain ⟨gs1, hgs1, hsub⟩ : ∃ gs1, filterStep pattern gs0 = .ok gs1 ∧
      ∀ g ∈ gs1, g ∈ gs0 := by
    unfold filterStep
    split
    · exact filterByPattern_ok_of_wf (pyOpt pattern) gs0 hwf
    · exact ⟨gs0, rfl, fun g hg => hg⟩
  have hwf1 : ∀ g ∈ gs1, wfGuess g := fun g hg => hwf g (hsub g hg)
  obtain ⟨hwf2, hdc2⟩ :=
    fallbackStep_wf wordList limit orc pattern gs1 dc hwf1 hdc hor
  obtain ⟨res, hres⟩ := enrichStep_ok_of_wf orc _ _ hwf2 hdc2 hor
  exact ⟨gs1, res, hgs1, hres⟩

/-- C2 amended: when the model call raises (the caught path that produces
the single error-annotated entry) or its text parses to JSON whose
top-level value is not a list (treated as an empty guess list),
`ai_guess_clue` returns a list and propagates no exception — provided
every dictionary meaning in play is a string (all cached values and all
oracle responses; `get_meaning` itself only breaks this when a payload's
`"definition"` value is a non-string).  A parsed list with non-object
elements or non-string word/meaning values can, by contrast, raise. -/
theorem c2_degraded_model_safe (wordList : List (List Char)) (limit : Nat)
    (ttl : Int) (mr : ModelResult) (orc : List Char → HttpResult)
    (clue : List Char) (pattern : Option (List Char)) (now : Int)
    (st : AppState)
    (hmr : match mr with | .exn _ => True | .json j => j.isArr = false)
    (hdc : strCache st.dictCache) (hor : strOracle orc) :
    ∃ out st' inv,
      ai_guess_clue wordList limit ttl true mr orc clue pattern now st
        = .ok (out, st', inv) := by
  cases hfresh : cacheFresh st.aiCache (aiCacheKey clue pattern) now ttl with
  | some data =>
    refine ⟨data, st, false, ?_⟩
    simp only [ai_guess_clue, hfresh]
  | none =>
    have hwf0 : ∀ g ∈ modelGuesses true mr, wfGuess g := by
      rcases mr with msg | j
      · intro g hg
        rcases List.mem_cons.mp hg with rfl | hg
        · exact aiErrorEntry_wf msg
        · cases hg
      · intro g hg
        cases j <;> simp [modelGuesses, Json.isArr] at hg hmr
    obtain ⟨gs1, res, hf, he⟩ := pipeline_ok wordList limit orc pattern
      (modelGuesses true mr) st.dictCache hwf0 hdc hor
    refine ⟨res.1,
      ⟨ainsert st.aiCache (aiCacheKey clue pattern) ⟨now, res.1⟩, res.2⟩,
      true, ?_⟩
    simp only [ai_guess_clue, hfresh, hf, he]

/-- Witness for C2 (amended) at a concrete input. -/
theorem c2_degraded_model_safe_witness :
    ∃ out st' inv,
      ai_guess_clue exampleWordList 50 3600 true (.exn "boom".toList)
        failOracle "x".toList (some "c?t".toList) 0 emptyState
        = .ok (out, st', inv) :=
  c2_degraded_model_safe exampleWordList 50 3600 (.exn "boom".toList)
    failOracle "x".toList (some "c?t".toList) 0 emptyState True.intro
    (fun _ h => absurd h (List.not_mem_nil _)) (fun _ => rfl)

/-- A whitespace-trimmed string value. -/
def isTrimStr (v : Json) : Prop := ∃ s, v = Json.str s ∧ strip s = s

/-- Every cached dictionary value is a trimmed string. -/
def trimCache (dc : DictCache) : Prop := ∀ kv ∈ dc, isTrimStr kv.2

/-- Every dictionary response yields a trimmed string (true in particular
of every failing response, which yields the sentinel). -/
def trimOracle (orc : List Char → HttpResult) : Prop :=
  ∀ w, isTrimStr (responseMeaning (orc w))

/-- `get_meaning` preserves the trimmed-strings invariant. -/
theorem get_meaning_trims (orc : List Char → HttpResult) (w : List Char)
    (dc : DictCache) (hdc : trimCache dc) (hor : trimOracle orc) :
    isTrimStr (get_meaning orc w dc).1 ∧ trimCache (get_meaning orc w dc).2.1 := by
  simp only [get_meaning]
  cases h : alookup dc (strLower w) with
  | some m =>
    exact ⟨hdc _ (alookup_mem _ _ _ h), hdc⟩
  | none =>
    refine ⟨hor _, ?_⟩
    intro kv hkv
    simp only [ainsert, List.mem_cons] at hkv
    rcases hkv with rfl | hkv
    · exact hor _
    · exact hdc _ hkv

/-- `mapGetMeaning` preserves the trimmed-strings invariant. -/
theorem mapGetMeaning_trims (orc : List Char → HttpResult)
    (ws : List (List Char)) (dc : DictCache) (hdc : trimCache dc)
    (hor : trimOracle orc) :
    (∀ c ∈ (mapGetMeaning orc ws dc).1, isTrimStr c.meaning) ∧
      trimCache (mapGetMeaning orc ws dc).2 := by
  induction ws generalizing dc with
  | nil => exact ⟨fun c hc => absurd hc (List.not_mem_nil _), hdc⟩
  | cons w t ih =>
    obtain ⟨h1, h2⟩ := get_meaning_trims orc w dc hdc hor
    obtain ⟨ih1, ih2⟩ := ih _ h2
    simp only [mapGetMeaning]
    refine ⟨?_, ih2⟩
    intro c hc
    rcases List.mem_cons.mp hc with rfl | hc
    · exact h1
    · exact ih1 c hc

/-- Enrichment is the identity on pattern-search candidates whose words
are trimmed and non-empty and whose meanings are trimmed strings already
cached under the word: a weak meaning is re-fetched from the cache
(yielding the same value), a strong one is kept verbatim by trimming. -/
theorem enrichStep_id_of_clean (orc : List Char → HttpResult)
    (cands : List Cand) (dc : DictCache)
    (hcl : ∀ c ∈ cands, strip c.word = c.word ∧ c.word ≠ [] ∧
      ∃ m, c.meaning = Json.str m ∧ strip m = m ∧
        alookup dc (strLower c.word) = some (Json.str m)) :
    enrichStep orc (cands.map candToJson) dc = .ok (cands, dc) := by
  induction cands with
  | nil => rfl
  | cons c t ih =>
    obtain ⟨hcw, hcnil, m, hcm, hmt, hdcm⟩ := hcl c (List.mem_cons_self _ _)
    have ihr := ih (fun c hc => hcl c (List.mem_cons_of_mem _ hc))
    have hw : alookup [("word".toList, Json.str c.word),
        ("meaning".toList, c.meaning)] "word".toList
        = some (Json.str c.word) := rfl
    have hm : alookup [("word".toList, Json.str c.word),
        ("meaning".toList, c.meaning)] "meaning".toList
        = some (Json.str m) := by
      rw [show alookup [("word".toList, Json.str c.word),
        ("meaning".toList, c.meaning)] "meaning".toList = some c.meaning
        from rfl, hcm]
    rw [List.map_cons]
    rw [show candToJson c = Json.obj [("word".toList, Json.str c.word),
      ("meaning".toList, c.meaning)] from rfl]
    rw [enrichStep_cons_str orc _ _ dc c.word m hw hm]
    rw [hcw, hmt]
    have hie : c.word.isEmpty = false := by simp [hcnil]
    rw [hie]
    simp only [Bool.false_eq_true, if_false]
    have hgm : get_meaning orc c.word dc = (Json.str m, dc, false) :=
      get_meaning_hit orc c.word dc _ hdcm
    by_cases hweak : (decide (m.length < 5) ||
        "ai error".toList.isPrefixOf (strLower m)) = true
    · rw [if_pos hweak, hgm, ihr]
      rw [← hcm]
    · rw [if_neg hweak, ihr]
      rw [← hcm]

/-- C3 counterexample: the model is configured but its call errors; with
the pattern "e????" supplied, the error entry's word "Error" matches and
survives filtering, so the returned sequence is the error entry — while
`solve("e????")` over the same word list is empty. -/
theorem c3_error_entry_cex :
    (ai_guess_clue exampleWordList 50 3600 true (.exn "boom".toList)
      failOracle "x".toList (some "e????".toList) 0 emptyState).map
        (fun r => r.1)
      = .ok [⟨"Error".toList, sentinelJ⟩] ∧
    (find_matches_with_meanings exampleWordList 50 failOracle
      "e????".toList []).1 = [] :=
  ⟨rfl, rfl⟩

/-- C3 amended: when the model is UNCONFIGURED (it is then never
invoked), a non-empty pattern is supplied and no unexpired cache entry
exists, `ai_guess_clue` returns exactly the sequence that
`find_matches_with_meanings` (the `/solve` computation) produces from the
same state — provided the word index holds trimmed non-empty words (true
of the loader) and all dictionary meanings in play are trimmed strings.
When the model is configured and errors, the error entry can survive the
pattern filter (see the counterexample), so the errors case is excluded. -/
theorem c3_unconfigured_fallback (wordList : List (List Char)) (limit : Nat)
    (ttl : Int) (mr : ModelResult) (orc : List Char → HttpResult)
    (clue p : List Char) (now : Int) (st : AppState)
    (hp : p ≠ [])
    (hmiss : cacheFresh st.aiCache (aiCacheKey clue (some p)) now ttl = none)
    (hwl : ∀ w ∈ wordList, strip w = w ∧ w ≠ [])
    (hdc : trimCache st.dictCache) (hor : trimOracle orc) :
    (ai_guess_clue wordList limit ttl false mr orc clue (some p) now st).map
        (fun r => (r.1, r.2.2))
      = .ok ((find_matches_with_meanings wordList limit orc p
          st.dictCache).1, false) := by
  have hmg : modelGuesses false mr = [] := rfl
  have hfil : filterStep (some p) ([] : List Json) = .ok [] := rfl
  have hopt : optTruthy (some p) = true := by simp [optTruthy, hp]
  have hfb : fallbackStep wordList limit orc (some p) [] st.dictCache
      = ((find_matches_with_meanings wordList limit orc p st.dictCache).1.map
          candToJson,
         (find_matches_with_meanings wordList limit orc p st.dictCache).2) := by
    simp [fallbackStep, hopt, pyOpt]
  have hfind : find_matches_with_meanings wordList limit orc p st.dictCache
      = mapGetMeaning orc ((patternMatches wordList p).take limit)
          st.dictCache := rfl
  have hcl : ∀ c ∈ (find_matches_with_meanings wordList limit orc p
      st.dictCache).1, strip c.word = c.word ∧ c.word ≠ [] ∧
      ∃ m, c.meaning = Json.str m ∧ strip m = m ∧
        alookup (find_matches_with_meanings wordList limit orc p
          st.dictCache).2 (strLower c.word) = some (Json.str m) := by
    intro c hc
    rw [hfind] at hc
    have hcw : c.word ∈ (patternMatches wordList p).take limit := by
      have hwords := mapGetMeaning_words orc
        ((patternMatches wordList p).take limit) st.dictCache
      rw [← hwords]
      exact List.mem_map_of_mem Cand.word hc
    have hcwl : c.word ∈ wordList := by
      have h1 : c.word ∈ patternMatches wordList p :=
        List.take_subset _ _ hcw
      exact List.mem_of_mem_filter h1
    obtain ⟨hst, hne⟩ := hwl _ hcwl
    obtain ⟨htrim, _⟩ := mapGetMeaning_trims orc
      ((patternMatches wordList p).take limit) st.dictCache hdc hor
    obtain ⟨m, hm, hmt⟩ := htrim c hc
    have hcache := mapGetMeaning_cached orc
      ((patternMatches wordList p).take limit) st.dictCache c hc
    rw [hm] at hcache
    rw [hfind]
    exact ⟨hst, hne, m, hm, hmt, hcache⟩
  have henr := enrichStep_id_of_clean orc
    (find_matches_with_meanings wordList limit orc p st.dictCache).1
    (find_matches_with_meanings wordList limit orc p st.dictCache).2 hcl
  simp only [ai_guess_clue, hmiss, hmg, hfil, hfb, henr, Except.map]

/-- Witness for C3 (amended) at a concrete input: unconfigured model,
pattern "c?t", empty caches. -/
theorem c3_unconfigured_fallback_witness :
    (ai_guess_clue exampleWordList 50 10 false (.json .null) failOracle
      "x".toList (some "c?t".toList) 0 emptyState).map
        (fun r => (r.1, r.2.2))
      = .ok ((find_matches_with_meanings exampleWordList 50 failOracle
          "c?t".toList []).1, false) :=
  c3_unconfigured_fallback exampleWordList 50 10 (.json .null) failOracle
    "x".toList "c?t".toList 0 emptyState (by decide) rfl (by decide)
    (fun _ h => absurd h (List.not_mem_nil _))
    (fun _ => ⟨sentinelStr, rfl, rfl⟩)
